import Mathlib

/-!
# Verification of the go-bitfield decoder

Shallow embedding of `bitfield.go` (package `bitfield`): `Unmarshal` decodes a
byte buffer into a struct whose integer fields may carry a `bit:"W"` tag.
Bytes are modelled as `Nat` (each `< 256` for real buffers), `uint64`
arithmetic is `Nat` with explicit `% 2 ^ 64`, `int64` narrowing is explicit.
Struct fields are modelled by their reflection-visible data (integer kind,
optional `bit` tag string, exportedness); the caller's struct is a list of
fields paired with the prior values of their slots.
-/

/-- Go `ByteOrder` from `option.go` (`LittleEndian` is the zero value). -/
inductive ByteOrder where
  | LittleEndian
  | BigEndian
deriving DecidableEq

/-- The reflection kind of a struct field's type: the eight fixed-size integer
kinds accepted by `isFixedInteger`, or any non-integer type. -/
inductive Kind where
  | u8
  | u16
  | u32
  | u64
  | i8
  | i16
  | i32
  | i64
  | nonInteger
deriving DecidableEq

/-- Go `isFixedInteger` from `bitfield.go`: the eight fixed-size integer kinds. -/
def isFixedInteger : Kind → Bool
  | .nonInteger => false
  | _ => true

/-- `reflect.Type.Bits()` for the integer kinds (`0` stands in for the
non-integer kinds, on which the Go code never calls it). -/
def kindBits : Kind → Nat
  | .u8 => 8
  | .u16 => 16
  | .u32 => 32
  | .u64 => 64
  | .i8 => 8
  | .i16 => 16
  | .i32 => 32
  | .i64 => 64
  | .nonInteger => 0

/-- `reflect.Value.CanUint`: the unsigned integer kinds. -/
def kindUnsigned : Kind → Bool
  | .u8 => true
  | .u16 => true
  | .u32 => true
  | .u64 => true
  | _ => false

/-- `reflect.Value.CanInt`: the signed integer kinds. -/
def kindSigned : Kind → Bool
  | .i8 => true
  | .i16 => true
  | .i32 => true
  | .i64 => true
  | _ => false

/-- A struct field as `unmarshal`/`validateField` see it through reflection:
its type's kind, its optional `bit` tag, and whether it is exported. -/
structure StructField where
  kind : Kind
  tag : Option String
  exported : Bool
deriving DecidableEq

/-- Digit-string accumulator of `strconv.Atoi` (base 10): `none` on any
non-digit character. -/
def parseDigits : List Char → Nat → Option Nat
  | [], acc => some acc
  | c :: cs, acc =>
    if c.isDigit then parseDigits cs (acc * 10 + (c.toNat - 48)) else none

/-- Go `strconv.Atoi`: optional sign, one or more decimal digits, value within
`int64` range (on error Go also returns a value — `0`, or the clamped bound on
range overflow — but every caller of the error path discards it, so `none`
models all error returns). -/
def atoi (s : String) : Option Int :=
  match s.data with
  | [] => none
  | '+' :: ds =>
    if ds = [] then none
    else
      match parseDigits ds 0 with
      | some n => if n ≤ 2 ^ 63 - 1 then some (n : Int) else none
      | none => none
  | '-' :: ds =>
    if ds = [] then none
    else
      match parseDigits ds 0 with
      | some n => if n ≤ 2 ^ 63 then some (-(n : Int)) else none
      | none => none
  | ds =>
    match parseDigits ds 0 with
    | some n => if n ≤ 2 ^ 63 - 1 then some (n : Int) else none
    | none => none

/-- Inner loop of Go `parseValueLittleEndian`:
`for ; iBitInData < 8 && i < bitSize; iBitInData, i = iBitInData+1, i+1
   { val |= (((d >> iBitInData) & 1) << i) }`.
`cap` is the explicit count of the remaining `iBitInData < 8` iterations
(`8 - iBitInData` at entry), making the loop structurally recursive; the shift
wraps at 64 bits exactly as Go's `uint64` shift does. -/
def leInner (d bitSize : Nat) : Nat → Nat → Nat → Nat → Nat × Nat × Nat
  | 0, val, i, iBit => (val, i, iBit)
  | cap + 1, val, i, iBit =>
    if i < bitSize then
      leInner d bitSize cap (val ||| ((((d >>> iBit) &&& 1) <<< i) % 2 ^ 64)) (i + 1) (iBit + 1)
    else (val, i, iBit)

/-- Outer loop of Go `parseValueLittleEndian`:
`for i < bitSize && iData < len(data) { d := data[iData]; <inner loop>;
   if iBitInData >= 8 { iData++; iBitInData = 0 } }`.
`rem` is the explicit count `data.length - iData` of bytes the cursor can
still enter (`rem = 0` is exactly the Go guard `iData < len(data)` failing);
every continuing iteration increments `iData`, so the loop is structurally
recursive on `rem`. -/
def leOuter (data : List Nat) (bitSize : Nat) : Nat → Nat → Nat → Nat → Nat → Nat × Nat × Nat
  | 0, val, _i, iData, iBit => (val, iData, iBit)
  | rem + 1, val, i, iData, iBit =>
    if i < bitSize then
      let r := leInner (data.getD iData 0) bitSize (8 - iBit) val i iBit
      if 8 ≤ r.2.2 then leOuter data bitSize rem r.1 r.2.1 (iData + 1) 0
      else (r.1, iData, r.2.2)
    else (val, iData, iBit)

/-- Go `parseValueLittleEndian(data, bitSize, iData, iBitInData)`. -/
def parseValueLittleEndian (data : List Nat) (bitSize iData iBit : Nat) : Nat × Nat × Nat :=
  leOuter data bitSize (data.length - iData) 0 0 iData iBit

/-- Loop of Go `parseValueBigEndian`:
`for consumedBits := 0; consumedBits < bitSize && iData < len(data); {
   remainedBitInThisByte := 8 - iBitInData
   wantBitInThisByte := min(bitSize-consumedBits, remainedBitInThisByte)
   mask := 0xff >> (8 - wantBitInThisByte); b := data[iData] >> iBitInData
   consumedBits += wantBitInThisByte
   val = (val << wantBitInThisByte) | uint64(b & mask)
   iBitInData += wantBitInThisByte
   if iBitInData >= 8 { iData++; iBitInData = 0 } }`.
As in `leOuter`, `rem = data.length - iData` makes the recursion structural;
the `uint64` shift of `val` wraps at `2 ^ 64`. -/
def beOuter (data : List Nat) (bitSize : Nat) : Nat → Nat → Nat → Nat → Nat → Nat × Nat × Nat
  | 0, val, _consumedBits, iData, iBit => (val, iData, iBit)
  | rem + 1, val, consumedBits, iData, iBit =>
    if consumedBits < bitSize then
      let remainedBitInThisByte := 8 - iBit
      let wantBitInThisByte :=
        if bitSize - consumedBits < remainedBitInThisByte then bitSize - consumedBits
        else remainedBitInThisByte
      let mask := 255 >>> (8 - wantBitInThisByte)
      let b := data.getD iData 0 >>> iBit
      let val2 := ((val <<< wantBitInThisByte) % 2 ^ 64) ||| (b &&& mask)
      let iBit2 := iBit + wantBitInThisByte
      if 8 ≤ iBit2 then
        beOuter data bitSize rem val2 (consumedBits + wantBitInThisByte) (iData + 1) 0
      else (val2, iData, iBit2)
    else (val, iData, iBit)

/-- Go `parseValueBigEndian(data, bitSize, iData, iBitInData)`. -/
def parseValueBigEndian (data : List Nat) (bitSize iData iBit : Nat) : Nat × Nat × Nat :=
  beOuter data bitSize (data.length - iData) 0 0 iData iBit

/-- Go `parseValue`: dispatch on the byte order. -/
def parseValue (data : List Nat) (bitSize iData iBit : Nat) (byteOrder : ByteOrder) :
    Nat × Nat × Nat :=
  match byteOrder with
  | .LittleEndian => parseValueLittleEndian data bitSize iData iBit
  | .BigEndian => parseValueBigEndian data bitSize iData iBit

/-- Go's conversion `int64(x)` of a `uint64` value `x < 2 ^ 64`. -/
def int64OfUInt64 (x : Nat) : Int :=
  if x < 2 ^ 63 then (x : Int) else (x : Int) - 2 ^ 64

/-- Go `signed(val, bitSize)` from `bitfield.go`:
`msb := val >> (bitSize - 1); pattern := (0 - msb) << bitSize;
 return int64(val | pattern)` in `uint64` arithmetic. -/
def signed (val : Nat) (bitSize : Nat) : Int :=
  let v := val % 2 ^ 64
  let msb := v >>> (bitSize - 1)
  let pattern := (((2 ^ 64 - msb) % 2 ^ 64) <<< bitSize) % 2 ^ 64
  int64OfUInt64 (v ||| pattern)

/-- `reflect.Value.SetUint` narrows the `uint64` to the container's width. -/
def wrapUnsigned (x : Nat) (w : Nat) : Nat := x % 2 ^ w

/-- `reflect.Value.SetInt` narrows the `int64` to the container's width
(two's complement). -/
def wrapSignedInt (x : Int) (w : Nat) : Int :=
  let m := x % (2 ^ w : Int)
  if m < 2 ^ (w - 1) then m else m - 2 ^ w

/-- The write-back step of Go `unmarshal`:
`if rt.Field(iField).IsExported() { if vf.CanUint() { vf.SetUint(val) }
 else if vf.CanInt() { vf.SetInt(signed(val, bitSize)) } }`;
any field that is not written keeps its prior value. -/
def storeField (f : StructField) (prior : Int) (val : Nat) (bitSize : Nat) : Int :=
  if f.exported then
    if kindUnsigned f.kind then (wrapUnsigned val (kindBits f.kind) : Int)
    else if kindSigned f.kind then wrapSignedInt (signed val bitSize) (kindBits f.kind)
    else prior
  else prior

/-- Go `unmarshal`'s field loop, threading the cursor `(iData, iBitInData)`
across all fields.  A field with a `bit` tag uses the tag's width (`unmarshal`
runs after validation, so the tag parses; on the unreachable unvalidated error
path Go would use `strconv.Atoi`'s error value instead of `0`).  An untagged
fixed-integer field uses its type's natural width after realigning a partially
read byte; any other field is skipped (`continue`).  Returns the new values of
all field slots in order. -/
def unmarshal (data : List Nat) (byteOrder : ByteOrder) :
    List (StructField × Int) → Nat → Nat → List Int
  | [], _, _ => []
  | (f, prior) :: rest, iData, iBit =>
    match f.tag with
    | some tag =>
      let bitSize := ((atoi tag).getD 0).toNat
      let r := parseValue data bitSize iData iBit byteOrder
      storeField f prior r.1 bitSize :: unmarshal data byteOrder rest r.2.1 r.2.2
    | none =>
      if isFixedInteger f.kind then
        let bitSize := kindBits f.kind
        let iData2 := if 0 < iBit then iData + 1 else iData
        let iBit2 := if 0 < iBit then 0 else iBit
        let r := parseValue data bitSize iData2 iBit2 byteOrder
        storeField f prior r.1 bitSize :: unmarshal data byteOrder rest r.2.1 r.2.2
      else prior :: unmarshal data byteOrder rest iData iBit

/-- The two error kinds of `error.go`.  A `TypeError` carries its message
variant; a `FieldError` carries the offending field's index (its identity) and
the `problem` string. -/
inductive UnmarshalError where
  | typeError (problem : String)
  | fieldError (index : Nat) (problem : String)
deriving DecidableEq

/-- The decode target `out any` as `ensureNonNilPointerToStruct` classifies it:
one constructor per rejected shape, and a pointer to a struct whose fields
carry their prior slot values. -/
inductive Target where
  | nilValue
  | nonPointer
  | nilPointer
  | pointerToNonStruct
  | structRef (fields : List (StructField × Int))
deriving DecidableEq

/-- Go `ensureNonNilPointerToStruct` (the Go messages also embed the dynamic
type's string, which has no counterpart in the model). -/
def ensureNonNilPointerToStruct : Target → Option UnmarshalError
  | .nilValue =>
    some (.typeError "de/encoded object must be non-nil pointer to struct (nil passed)")
  | .nonPointer =>
    some (.typeError "de/encoded object must be non-nil pointer to struct (non-pointer passed)")
  | .nilPointer =>
    some (.typeError "de/encoded object must be non-nil pointer to struct (nil pointer passed)")
  | .pointerToNonStruct =>
    some (.typeError "de/encoded object must be non-nil pointer to struct (pointer to non-struct passed)")
  | .structRef _ => none

/-- Go `validateField`: returns the `problem` string of the `FieldError`, if
any.  Fields without a `bit` tag are never rejected. -/
def validateField (f : StructField) : Option String :=
  match f.tag with
  | none => none
  | some tag =>
    match atoi tag with
    | none => some "bit size must be integer"
    | some bitSize =>
      if isFixedInteger f.kind = false then some "bit field must be fixed-size integer type"
      else if ¬(1 ≤ bitSize ∧ bitSize ≤ (kindBits f.kind : Int)) then
        some "bit size must be within range 1 to its type size"
      else none

/-- Go `validateStruct`'s field loop: first failing field wins; `i` is the
index of the first field of the remaining list. -/
def validateStructFields : Nat → List StructField → Option UnmarshalError
  | _, [] => none
  | i, f :: rest =>
    match validateField f with
    | some problem => some (.fieldError i problem)
    | none => validateStructFields (i + 1) rest

/-- Go `validateStruct`. -/
def validateStruct : Target → Option UnmarshalError
  | .structRef fields => validateStructFields 0 (fields.map Prod.fst)
  | _ => none

/-- Go `validateUnmarshalType`: target shape first, then the field schema. -/
def validateUnmarshalType (t : Target) : Option UnmarshalError :=
  match ensureNonNilPointerToStruct t with
  | some e => some e
  | none => validateStruct t

/-- Go `options` (only the byte order; zero value `LittleEndian`). -/
structure Options where
  byteOrder : ByteOrder
deriving DecidableEq

/-- A caller-supplied `Option`: the package exports exactly one constructor,
`WithByteOrder`, whose closure never returns an error. -/
inductive GoOption where
  | withByteOrder (order : ByteOrder)
deriving DecidableEq

/-- Application of one `Option` closure to the `options` record. -/
def applyOption : GoOption → Options → Options
  | .withByteOrder order, _o => { byteOrder := order }

/-- Go `collectOptions`: fold the option closures over the zero `options`
value (`WithByteOrder` never errors, so neither does the fold). -/
def collectOptions (opts : List GoOption) : Options :=
  opts.foldl (fun acc opt => applyOption opt acc) ⟨ByteOrder.LittleEndian⟩

/-- The mutation `unmarshal(data, out, options)` performs on the target:
every field slot is replaced by the value `unmarshal` computes for it. -/
def applyUnmarshal (data : List Nat) (t : Target) (options : Options) : Target :=
  match t with
  | .structRef fields =>
    .structRef (List.zipWith (fun fp v => (fp.1, v)) fields
      (unmarshal data options.byteOrder fields 0 0))
  | t2 => t2

/-- Go `Unmarshal(data, out, opts...)`: validate, collect options, decode.
Returns the error (if any) together with the final state of the target. -/
def Unmarshal (data : List Nat) (out : Target) (opts : List GoOption) :
    Option UnmarshalError × Target :=
  match validateUnmarshalType out with
  | some e => (some e, out)
  | none => (none, applyUnmarshal data out (collectOptions opts))

/-- Modelled from the spec (§4.2 byte-aligned fields): "The field's full
natural width (1/2/4/8 bytes) is then read directly as a byte-order-assembled
integer (not bit-by-bit)" — direct assembly of a byte list in the selected
byte order. -/
def readBytesDirect (byteOrder : ByteOrder) (bytes : List Nat) : Nat :=
  match byteOrder with
  | .LittleEndian => bytes.foldr (fun b acc => acc * 256 + b) 0
  | .BigEndian => bytes.foldl (fun acc b => acc * 256 + b) 0

/-- Projection of a decode target's struct fields (empty for non-structs),
used to state properties of the output record. -/
def targetFields : Target → List (StructField × Int)
  | .structRef fields => fields
  | _ => []

/-- C1: decoding {0x12,0x34,0x56,0x78} with the schema
{A: uint8 bit 4}{B: uint8 bit 8}{C: uint32 bit 20} under the default
LittleEndian order yields A = 0x2, B = 0x41, C = 0x78563, and the three
parses chain through a single cursor: A reads bits from (0,0) to (0,4),
B from (0,4) to (1,4), C from (1,4) to (4,0). -/
theorem unmarshal_end_to_end_little_endian :
    Unmarshal [0x12, 0x34, 0x56, 0x78]
        (.structRef [(⟨.u8, some "4", true⟩, 0), (⟨.u8, some "8", true⟩, 0),
          (⟨.u32, some "20", true⟩, 0)]) []
      = (none, .structRef [(⟨.u8, some "4", true⟩, 0x2), (⟨.u8, some "8", true⟩, 0x41),
          (⟨.u32, some "20", true⟩, 0x78563)])
    ∧ parseValueLittleEndian [0x12, 0x34, 0x56, 0x78] 4 0 0 = (0x2, 0, 4)
    ∧ parseValueLittleEndian [0x12, 0x34, 0x56, 0x78] 8 0 4 = (0x41, 1, 4)
    ∧ parseValueLittleEndian [0x12, 0x34, 0x56, 0x78] 20 1 4 = (0x78563, 4, 0) := by
  decide

/-- C2: with the schema {uint8 bit 4}{plain uint8} on buffer {0x55, 0xAA},
the bit-field reads 0x5 and the plain field reads 0xAA, because the cursor
realigns to byte 1 (discarding the upper 4 bits of byte 0) before the plain
field is read. -/
theorem unmarshal_alignment_restart :
    Unmarshal [0x55, 0xAA]
        (.structRef [(⟨.u8, some "4", true⟩, 0), (⟨.u8, none, true⟩, 0)]) []
      = (none, .structRef [(⟨.u8, some "4", true⟩, 0x5), (⟨.u8, none, true⟩, 0xAA)]) := by
  decide

/-- C9 counterexample: the tag "0" parses as an integer (a non-positive one),
so validation rejects it with the range reason, not with
"bit size must be integer" as the claim predicts for every annotation that
does not parse as a positive integer. -/
theorem validate_zero_width_not_integer_reason :
    Unmarshal [0x00] (.structRef [(⟨.u8, some "0", true⟩, 0)]) []
        = (some (.fieldError 0 "bit size must be within range 1 to its type size"),
           .structRef [(⟨.u8, some "0", true⟩, 0)])
    ∧ atoi "0" = some 0
    ∧ Unmarshal [0x00] (.structRef [(⟨.u8, some "0", true⟩, 0)]) []
        ≠ (some (.fieldError 0 "bit size must be integer"),
           .structRef [(⟨.u8, some "0", true⟩, 0)]) := by
  decide

/-- C4: for every width 1 ≤ W ≤ 64 and every unsigned container kind of at
least W bits, decoding a single bit-field of declared width W from a buffer
of ceil(W/8) bytes of 0xFF (little-endian packing) yields 2^W - 1. -/
theorem unmarshal_all_ones_yields_two_pow_sub_one :
    ∀ (W : Nat) (k : Kind), 1 ≤ W → W ≤ 64 → kindUnsigned k = true → W ≤ kindBits k →
      Unmarshal (List.replicate ((W + 7) / 8) 0xFF)
          (.structRef [(⟨k, some (toString W), true⟩, 0)]) []
        = (none, .structRef [(⟨k, some (toString W), true⟩, ((2 ^ W - 1 : Nat) : Int))]) := by
  intro W k h1 h64 hu hw
  cases k <;>
    first
      | exact absurd hu (by decide)
      | (simp only [kindBits] at hw; interval_cases W <;> decide)

/-- C4 witness: the theorem instantiated at W = 20 with a uint32 container. -/
theorem unmarshal_all_ones_yields_two_pow_sub_one_witness :
    Unmarshal (List.replicate ((20 + 7) / 8) 0xFF)
        (.structRef [(⟨.u32, some (toString 20), true⟩, 0)]) []
      = (none, .structRef [(⟨.u32, some (toString 20), true⟩, ((2 ^ 20 - 1 : Nat) : Int))]) :=
  unmarshal_all_ones_yields_two_pow_sub_one 20 .u32 (by decide) (by decide) (by decide)
    (by decide)

/-- Helper: the high-bit `pattern` computed by `signed` when the top bit is 1:
`(0 - 1) << bitSize` in `uint64` arithmetic is `2 ^ 64 - 2 ^ W`. -/
theorem signed_pattern_eq (W : Nat) (h64 : W ≤ 64) :
    (((2 ^ 64 - 1) % 2 ^ 64) <<< W) % 2 ^ 64 = 2 ^ 64 - 2 ^ W := by
  have hple : (2 : Nat) ^ W ≤ 2 ^ 64 := Nat.pow_le_pow_right (by norm_num) h64
  have hp1 : (1 : Nat) ≤ 2 ^ W := Nat.one_le_two_pow
  have hconst : ((2 ^ 64 - 1) % 2 ^ 64 : Nat) = 2 ^ 64 - 1 := by norm_num
  rw [hconst, Nat.shiftLeft_eq]
  have h2 : (2 ^ 64 - 1) * 2 ^ W = 2 ^ 64 * (2 ^ W - 1) + (2 ^ 64 - 2 ^ W) := by omega
  rw [h2, Nat.mul_add_mod, Nat.mod_eq_of_lt (by omega)]

/-- Helper: or with the high-bit pattern is addition when the low part fits. -/
theorem or_pattern_eq_add (W raw : Nat) (hW : 1 ≤ W) (h64 : W ≤ 64) (hlt : raw < 2 ^ W) :
    raw ||| (2 ^ 64 - 2 ^ W) = (2 ^ 64 - 2 ^ W) + raw := by
  rcases Nat.lt_or_ge W 64 with hlt64 | hge64
  · obtain ⟨q, hq⟩ : ∃ q, 2 ^ (64 - W) = q + 1 :=
      ⟨2 ^ (64 - W) - 1, by have : (1 : Nat) ≤ 2 ^ (64 - W) := Nat.one_le_two_pow; omega⟩
    have hmul : 2 ^ W * (q + 1) = 2 ^ 64 := by
      rw [← hq, ← pow_add]
      congr 1
      omega
    have hsplit : 2 ^ W * (q + 1) = 2 ^ W * q + 2 ^ W := by ring
    have hpat : 2 ^ 64 - 2 ^ W = 2 ^ W * q := by omega
    rw [hpat, Nat.lor_comm, ← Nat.mul_add_lt_is_or hlt q]
  · have hW64 : W = 64 := le_antisymm h64 hge64
    subst hW64
    simp

/-- C3: for every width 1 ≤ W ≤ 64 and every W-bit raw value whose top bit
(bit W−1) is set, `signed` maps the raw value to `rawValue − 2 ^ W` — the
`value | ((0 − (value >> (W−1))) << W)` computation in 64-bit wrap-around
arithmetic, narrowed to a signed 64-bit integer.  The W = 64 edge case is
included; `signed` is applied identically to declared and natural widths. -/
theorem signed_top_bit_sub_two_pow :
    ∀ (W raw : Nat), 1 ≤ W → W ≤ 64 → raw < 2 ^ W → raw.testBit (W - 1) = true →
      signed raw W = (raw : Int) - 2 ^ W := by
  intro W raw hW h64 hlt htop
  have hple : (2 : Nat) ^ W ≤ 2 ^ 64 := Nat.pow_le_pow_right (by norm_num) h64
  have hpow : (2 : Nat) ^ (W - 1) * 2 = 2 ^ W := by
    rw [← pow_succ]
    congr 1
    omega
  have hdiv2 : raw / 2 ^ (W - 1) < 2 := Nat.div_lt_of_lt_mul (by omega)
  rw [Nat.testBit_to_div_mod] at htop
  have hmod : raw / 2 ^ (W - 1) % 2 = 1 := of_decide_eq_true htop
  have hmsb : raw >>> (W - 1) = 1 := by
    rw [Nat.shiftRight_eq_div_pow]
    generalize hgen : raw / 2 ^ (W - 1) = e at hdiv2 hmod ⊢
    omega
  have hge : 2 ^ (W - 1) ≤ raw := by
    by_contra hcon
    push_neg at hcon
    have : raw / 2 ^ (W - 1) = 0 := Nat.div_eq_of_lt hcon
    omega
  have hraw64 : raw % 2 ^ 64 = raw := Nat.mod_eq_of_lt (lt_of_lt_of_le hlt hple)
  have hunfold : signed raw W
      = int64OfUInt64 ((raw % 2 ^ 64) |||
          ((((2 ^ 64 - ((raw % 2 ^ 64) >>> (W - 1))) % 2 ^ 64) <<< W) % 2 ^ 64)) := rfl
  rw [hunfold, hraw64, hmsb, signed_pattern_eq W h64, or_pattern_eq_add W raw hW h64 hlt]
  have hbig : ¬((2 ^ 64 - 2 ^ W) + raw < 2 ^ 63) := by
    rcases Nat.lt_or_ge W 64 with hlt64 | hge64
    · have h1 : (2 : Nat) ^ W ≤ 2 ^ 63 := Nat.pow_le_pow_right (by norm_num) (by omega)
      have h2 : (2 : Nat) ^ 63 + 2 ^ 63 = 2 ^ 64 := by norm_num
      omega
    · have hW64 : W = 64 := le_antisymm h64 hge64
      subst hW64
      have h3 : (2 : Nat) ^ (64 - 1) = 2 ^ 63 := by norm_num
      omega
  rw [int64OfUInt64, if_neg hbig]
  have h264 : ((2 : Int) ^ 64) = 18446744073709551616 := by norm_num
  have hcpow : ((2 : Int) ^ W) = ((2 ^ W : Nat) : Int) := by push_cast; ring
  rw [h264, hcpow]
  omega

/-- C3 witness: width 4, raw value 0b1101 = 13 decodes to 13 − 16 = −3. -/
theorem signed_top_bit_sub_two_pow_witness : signed 13 4 = (13 : Int) - 2 ^ 4 :=
  signed_top_bit_sub_two_pow 4 13 (by decide) (by decide) (by decide) (by decide)

/-- Helper: the little-endian inner loop consumes `min cap (bitSize - i)`
bits, advancing the output index `i` and the bit offset in lockstep. -/
theorem leInner_cursor (d bitSize : Nat) :
    ∀ (cap val i iBit : Nat),
      (leInner d bitSize cap val i iBit).2.1 = i + min cap (bitSize - i) ∧
      (leInner d bitSize cap val i iBit).2.2 = iBit + min cap (bitSize - i) := by
  intro cap
  induction cap with
  | zero => intro val i iBit; simp [leInner]
  | succ cap ih =>
    intro val i iBit
    by_cases h : i < bitSize
    · simp only [leInner, if_pos h]
      obtain ⟨h1, h2⟩ := ih (val ||| ((((d >>> iBit) &&& 1) <<< i) % 2 ^ 64)) (i + 1) (iBit + 1)
      rw [h1, h2]
      omega
    · simp only [leInner, if_neg h]
      have hz : bitSize - i = 0 := by omega
      rw [hz]
      simp

/-- Helper: cursor invariant for the little-endian outer loop — the bit
offset stays below 8 and the absolute bit position never moves backward. -/
theorem leOuter_cursor (data : List Nat) (bitSize : Nat) :
    ∀ (rem val i iData iBit : Nat), iBit < 8 →
      (leOuter data bitSize rem val i iData iBit).2.2 < 8 ∧
      iData ≤ (leOuter data bitSize rem val i iData iBit).2.1 ∧
      8 * iData + iBit ≤ 8 * (leOuter data bitSize rem val i iData iBit).2.1 +
        (leOuter data bitSize rem val i iData iBit).2.2 := by
  intro rem
  induction rem with
  | zero =>
    intro val i iData iBit h8
    simp only [leOuter]
    omega
  | succ rem ih =>
    intro val i iData iBit h8
    by_cases h : i < bitSize
    · simp only [leOuter, if_pos h]
      obtain ⟨hc1, hc2⟩ := leInner_cursor (data.getD iData 0) bitSize (8 - iBit) val i iBit
      by_cases hreset : 8 ≤ (leInner (data.getD iData 0) bitSize (8 - iBit) val i iBit).2.2
      · rw [if_pos hreset]
        obtain ⟨g1, g2, g3⟩ :=
          ih (leInner (data.getD iData 0) bitSize (8 - iBit) val i iBit).1
            (leInner (data.getD iData 0) bitSize (8 - iBit) val i iBit).2.1
            (iData + 1) 0 (by omega)
        exact ⟨g1, by omega, by omega⟩
      · rw [if_neg hreset]
        dsimp only
        omega
    · simp only [leOuter, if_neg h]
      omega

/-- Helper: cursor invariant for the big-endian loop. -/
theorem beOuter_cursor (data : List Nat) (bitSize : Nat) :
    ∀ (rem val consumedBits iData iBit : Nat), iBit < 8 →
      (beOuter data bitSize rem val consumedBits iData iBit).2.2 < 8 ∧
      iData ≤ (beOuter data bitSize rem val consumedBits iData iBit).2.1 ∧
      8 * iData + iBit ≤ 8 * (beOuter data bitSize rem val consumedBits iData iBit).2.1 +
        (beOuter data bitSize rem val consumedBits iData iBit).2.2 := by
  intro rem
  induction rem with
  | zero =>
    intro val consumedBits iData iBit h8
    simp only [beOuter]
    omega
  | succ rem ih =>
    intro val consumedBits iData iBit h8
    by_cases h : consumedBits < bitSize
    · simp only [beOuter, if_pos h]
      by_cases hreset :
          8 ≤ iBit + (if bitSize - consumedBits < 8 - iBit then bitSize - consumedBits
            else 8 - iBit)
      · rw [if_pos hreset]
        obtain ⟨g1, g2, g3⟩ :=
          ih (((val <<< (if bitSize - consumedBits < 8 - iBit then bitSize - consumedBits
                  else 8 - iBit)) % 2 ^ 64) |||
                (data.getD iData 0 >>> iBit &&&
                  (255 >>> (8 - (if bitSize - consumedBits < 8 - iBit then bitSize - consumedBits
                    else 8 - iBit)))))
            (consumedBits + (if bitSize - consumedBits < 8 - iBit then bitSize - consumedBits
              else 8 - iBit))
            (iData + 1) 0 (by omega)
        refine ⟨g1, by omega, by omega⟩
      · rw [if_neg hreset]
        dsimp only
        refine ⟨by omega, by omega, ?_⟩
        split at hreset <;> omega
    · simp only [beOuter, if_neg h]
      omega

/-- C8: every bit-extraction operation (either byte order) maintains the
cursor invariant — starting from a bit offset below 8, the returned bit
offset is again below 8, the byte index never decreases, and the absolute
bit position `8*byteIndex + bitOffset` never moves backward; and each decode
call threads one cursor created at (0,0) through the whole traversal. -/
theorem cursor_invariant :
    (∀ (data : List Nat) (bitSize iData iBit : Nat) (bo : ByteOrder), iBit < 8 →
      (parseValue data bitSize iData iBit bo).2.2 < 8 ∧
      iData ≤ (parseValue data bitSize iData iBit bo).2.1 ∧
      8 * iData + iBit ≤ 8 * (parseValue data bitSize iData iBit bo).2.1 +
        (parseValue data bitSize iData iBit bo).2.2)
    ∧ (∀ (data : List Nat) (options : Options) (fields : List (StructField × Int)),
        applyUnmarshal data (.structRef fields) options
          = .structRef (List.zipWith (fun fp v => (fp.1, v)) fields
              (unmarshal data options.byteOrder fields 0 0))) := by
  constructor
  · intro data bitSize iData iBit bo h8
    cases bo
    · exact leOuter_cursor data bitSize (data.length - iData) 0 0 iData iBit h8
    · exact beOuter_cursor data bitSize (data.length - iData) 0 0 iData iBit h8
  · intro data options fields
    rfl

/-- C8 witness: the invariant at a concrete parse crossing a byte boundary. -/
theorem cursor_invariant_witness :
    (parseValue [0x12, 0x34] 6 0 4 .LittleEndian).2.2 < 8 ∧
    0 ≤ (parseValue [0x12, 0x34] 6 0 4 .LittleEndian).2.1 ∧
    8 * 0 + 4 ≤ 8 * (parseValue [0x12, 0x34] 6 0 4 .LittleEndian).2.1 +
      (parseValue [0x12, 0x34] 6 0 4 .LittleEndian).2.2 :=
  cursor_invariant.1 [0x12, 0x34] 6 0 4 .LittleEndian (by decide)

/-- Helper: the little-endian inner loop keeps the accumulator below
`2 ^ outputIndex`. -/
theorem leInner_val_lt (d bitSize : Nat) :
    ∀ (cap val i iBit : Nat), val < 2 ^ i →
      (leInner d bitSize cap val i iBit).1 < 2 ^ (leInner d bitSize cap val i iBit).2.1 := by
  intro cap
  induction cap with
  | zero => intro val i iBit hv; simpa [leInner] using hv
  | succ cap ih =>
    intro val i iBit hv
    by_cases h : i < bitSize
    · simp only [leInner, if_pos h]
      apply ih
      have hb : (((d >>> iBit) &&& 1) <<< i) % 2 ^ 64 ≤ 2 ^ i := by
        calc (((d >>> iBit) &&& 1) <<< i) % 2 ^ 64 ≤ ((d >>> iBit) &&& 1) <<< i :=
              Nat.mod_le _ _
          _ = ((d >>> iBit) &&& 1) * 2 ^ i := Nat.shiftLeft_eq _ _
          _ ≤ 1 * 2 ^ i := Nat.mul_le_mul_right _ Nat.and_le_right
          _ = 2 ^ i := Nat.one_mul _
      have hpow : (2 : Nat) ^ i < 2 ^ (i + 1) := by
        have : (1 : Nat) ≤ 2 ^ i := Nat.one_le_two_pow
        calc (2 : Nat) ^ i < 2 ^ i + 2 ^ i := by omega
          _ = 2 ^ (i + 1) := by ring
      exact Nat.or_lt_two_pow (by omega) (by omega)
    · simpa [leInner, if_neg h] using hv

/-- Helper: the little-endian outer loop never fills output bits beyond the
requested width or beyond the bits available in the buffer. -/
theorem leOuter_val_lt (data : List Nat) (bitSize : Nat) :
    ∀ (rem val i iData iBit : Nat), iBit ≤ 8 → i ≤ bitSize → val < 2 ^ i →
      (leOuter data bitSize rem val i iData iBit).1
        < 2 ^ min bitSize (i + (8 * rem - iBit)) := by
  intro rem
  induction rem with
  | zero =>
    intro val i iData iBit h8 hi hv
    have hgoal : (leOuter data bitSize 0 val i iData iBit).1 = val := rfl
    have hmin : min bitSize (i + (8 * 0 - iBit)) = i := by omega
    rw [hgoal, hmin]
    exact hv
  | succ rem ih =>
    intro val i iData iBit h8 hi hv
    by_cases h : i < bitSize
    · simp only [leOuter, if_pos h]
      obtain ⟨hc1, hc2⟩ := leInner_cursor (data.getD iData 0) bitSize (8 - iBit) val i iBit
      have hvr := leInner_val_lt (data.getD iData 0) bitSize (8 - iBit) val i iBit hv
      by_cases hreset : 8 ≤ (leInner (data.getD iData 0) bitSize (8 - iBit) val i iBit).2.2
      · rw [if_pos hreset]
        have hr :=
          ih (leInner (data.getD iData 0) bitSize (8 - iBit) val i iBit).1
            (leInner (data.getD iData 0) bitSize (8 - iBit) val i iBit).2.1
            (iData + 1) 0 (by omega) (by omega) (by rw [hc1] at hvr ⊢; exact hvr)
        have hmin :
            min bitSize ((leInner (data.getD iData 0) bitSize (8 - iBit) val i iBit).2.1 +
              (8 * rem - 0)) = min bitSize (i + (8 * (rem + 1) - iBit)) := by omega
        rw [hmin] at hr
        exact hr
      · rw [if_neg hreset]
        dsimp only
        refine lt_of_lt_of_le hvr ?_
        rw [hc1]
        exact Nat.pow_le_pow_right (by norm_num) (by omega)
    · simp only [leOuter, if_neg h]
      have hmin : min bitSize (i + (8 * (rem + 1) - iBit)) = bitSize := by omega
      rw [hmin]
      have hieq : i = bitSize := by omega
      rw [hieq] at hv
      exact hv

/-- Helper: the big-endian byte mask `0xff >> (8 - want)` is `2 ^ want - 1`. -/
theorem mask_eq (w : Nat) (h : w ≤ 8) : 255 >>> (8 - w) = 2 ^ w - 1 := by
  interval_cases w <;> rfl

/-- Helper: the big-endian loop keeps the accumulator below
`2 ^ consumedBits` and never fills bits beyond the requested width or the
bits available in the buffer. -/
theorem beOuter_val_lt (data : List Nat) (bitSize : Nat) :
    ∀ (rem val consumedBits iData iBit : Nat), iBit ≤ 8 → consumedBits ≤ bitSize →
      val < 2 ^ consumedBits →
      (beOuter data bitSize rem val consumedBits iData iBit).1
        < 2 ^ min bitSize (consumedBits + (8 * rem - iBit)) := by
  intro rem
  induction rem with
  | zero =>
    intro val consumedBits iData iBit h8 hc hv
    have hgoal : (beOuter data bitSize 0 val consumedBits iData iBit).1 = val := rfl
    have hmin : min bitSize (consumedBits + (8 * 0 - iBit)) = consumedBits := by omega
    rw [hgoal, hmin]
    exact hv
  | succ rem ih =>
    intro val consumedBits iData iBit h8 hc hv
    by_cases h : consumedBits < bitSize
    · simp only [beOuter, if_pos h]
      set w := if bitSize - consumedBits < 8 - iBit then bitSize - consumedBits else 8 - iBit
        with hw
      have hwle : w ≤ 8 - iBit ∧ w ≤ bitSize - consumedBits := by
        rw [hw]
        split <;> omega
      have hval2 : ((val <<< w) % 2 ^ 64) |||
          (data.getD iData 0 >>> iBit &&& (255 >>> (8 - w))) < 2 ^ (consumedBits + w) := by
        apply Nat.or_lt_two_pow
        · calc (val <<< w) % 2 ^ 64 ≤ val <<< w := Nat.mod_le _ _
            _ = val * 2 ^ w := Nat.shiftLeft_eq _ _
            _ < 2 ^ consumedBits * 2 ^ w := by
                exact (mul_lt_mul_right (Nat.two_pow_pos w)).mpr hv
            _ = 2 ^ (consumedBits + w) := (pow_add 2 consumedBits w).symm
        · have hmask : 255 >>> (8 - w) = 2 ^ w - 1 := mask_eq w (by omega)
          have hple : (2 : Nat) ^ w ≤ 2 ^ (consumedBits + w) :=
            Nat.pow_le_pow_right (by norm_num) (by omega)
          calc data.getD iData 0 >>> iBit &&& (255 >>> (8 - w)) ≤ 255 >>> (8 - w) :=
                Nat.and_le_right
            _ = 2 ^ w - 1 := hmask
            _ < 2 ^ (consumedBits + w) := by
                have : (1 : Nat) ≤ 2 ^ w := Nat.one_le_two_pow
                omega
      by_cases hreset : 8 ≤ iBit + w
      · rw [if_pos hreset]
        have hr := ih (((val <<< w) % 2 ^ 64) |||
            (data.getD iData 0 >>> iBit &&& (255 >>> (8 - w))))
          (consumedBits + w) (iData + 1) 0 (by omega) (by omega) hval2
        have hmin : min bitSize ((consumedBits + w) + (8 * rem - 0))
            = min bitSize (consumedBits + (8 * (rem + 1) - iBit)) := by omega
        rw [hmin] at hr
        exact hr
      · rw [if_neg hreset]
        dsimp only
        refine lt_of_lt_of_le hval2 ?_
        exact Nat.pow_le_pow_right (by norm_num) (by omega)
    · simp only [beOuter, if_neg h]
      have hmin : min bitSize (consumedBits + (8 * (rem + 1) - iBit)) = bitSize := by omega
      rw [hmin]
      have hceq : consumedBits = bitSize := by omega
      rw [hceq] at hv
      exact hv

/-- C6: after validation succeeds, decoding returns no error for every
buffer and option list — buffer exhaustion is not an error; and extraction
(either byte order) stops early on an exhausted buffer, leaving all output
bits beyond the requested width or beyond the available
`8*(len - byteIndex) - bitOffset` bits at zero. -/
theorem exhaustion_is_lenient :
    (∀ (data : List Nat) (t : Target) (opts : List GoOption),
        validateUnmarshalType t = none → (Unmarshal data t opts).1 = none)
    ∧ (∀ (data : List Nat) (bitSize iData iBit : Nat) (bo : ByteOrder), iBit ≤ 8 →
        (parseValue data bitSize iData iBit bo).1
          < 2 ^ min bitSize (8 * (data.length - iData) - iBit)) := by
  constructor
  · intro data t opts h
    simp only [Unmarshal, h]
  · intro data bitSize iData iBit bo h8
    cases bo
    · have hr := leOuter_val_lt data bitSize (data.length - iData) 0 0 iData iBit h8
        (Nat.zero_le _) (by norm_num)
      simpa using hr
    · have hr := beOuter_val_lt data bitSize (data.length - iData) 0 0 iData iBit h8
        (Nat.zero_le _) (by norm_num)
      simpa using hr

/-- C6 witness: an empty struct decodes without error, and a 20-bit read
from a single-byte buffer fills only the 8 available bits. -/
theorem exhaustion_is_lenient_witness :
    (Unmarshal [0xAB] (.structRef [(⟨.u32, some "20", true⟩, 0)]) []).1 = none ∧
    (parseValue [0xFF] 20 0 0 .LittleEndian).1
      < 2 ^ min 20 (8 * ([(0xFF : Nat)].length - 0) - 0) :=
  ⟨exhaustion_is_lenient.1 [0xAB] (.structRef [(⟨.u32, some "20", true⟩, 0)]) [] (by decide),
   exhaustion_is_lenient.2 [0xFF] 20 0 0 .LittleEndian (by decide)⟩

/-- Helper: writing a decoded value into an exported integer-kind field does
not consult the slot's prior value. -/
theorem storeField_prior_irrelevant (f : StructField) (p p' : Int) (v bs : Nat)
    (hexp : f.exported = true) (hint : isFixedInteger f.kind = true) :
    storeField f p v bs = storeField f p' v bs := by
  cases hk : f.kind <;>
    simp_all [storeField, kindUnsigned, kindSigned, isFixedInteger]

/-- Helper: `unmarshal` produces one output slot per field. -/
theorem unmarshal_length (data : List Nat) (bo : ByteOrder) :
    ∀ (fs : List (StructField × Int)) (iData iBit : Nat),
      (unmarshal data bo fs iData iBit).length = fs.length := by
  intro fs
  induction fs with
  | nil => intro iData iBit; rfl
  | cons hd tl ih =>
    intro iData iBit
    obtain ⟨f0, p0⟩ := hd
    rcases htag : f0.tag with _ | tag
    · by_cases hfi : isFixedInteger f0.kind = true
      · simp only [unmarshal, htag, if_pos hfi, List.length_cons, ih]
      · simp only [unmarshal, htag, if_neg hfi, List.length_cons, ih]
    · simp only [unmarshal, htag, List.length_cons, ih]

/-- Helper: the value `unmarshal` writes into an exported integer-kind slot
does not depend on any slot's prior value (the cursor threading depends only
on the schema, the head's written value only on the buffer and schema). -/
theorem unmarshal_getElem_indep (data : List Nat) (bo : ByteOrder) :
    ∀ (fs fs' : List (StructField × Int)) (iData iBit : Nat),
      fs.map Prod.fst = fs'.map Prod.fst →
      ∀ (j : Nat) (f : StructField) (p p' : Int),
        fs[j]? = some (f, p) → fs'[j]? = some (f, p') →
        f.exported = true → isFixedInteger f.kind = true →
        (unmarshal data bo fs iData iBit)[j]? = (unmarshal data bo fs' iData iBit)[j]? := by
  intro fs
  induction fs with
  | nil =>
    intro fs' iData iBit hmap j f p p' h1
    simp at h1
  | cons hd tl ih =>
    intro fs' iData iBit hmap j f p p' h1 h2 hexp hint
    obtain ⟨f0, p0⟩ := hd
    cases fs' with
    | nil => simp at hmap
    | cons hd' tl' =>
      obtain ⟨f0', p0'⟩ := hd'
      simp only [List.map_cons, List.cons.injEq] at hmap
      obtain ⟨hfst, htl⟩ := hmap
      subst hfst
      cases j with
      | zero =>
        simp only [List.getElem?_cons_zero, Option.some.injEq] at h1 h2
        rw [Prod.mk.injEq] at h1 h2
        obtain ⟨hf, hp⟩ := h1
        obtain ⟨hf', hp'⟩ := h2
        subst hf
        rcases htag : f0.tag with _ | tag
        · have hfi : isFixedInteger f0.kind = true := hint
          simp only [unmarshal, htag, if_pos hfi, List.getElem?_cons_zero, Option.some.injEq]
          exact storeField_prior_irrelevant f0 p0 p0' _ _ hexp hint
        · simp only [unmarshal, htag, List.getElem?_cons_zero, Option.some.injEq]
          exact storeField_prior_irrelevant f0 p0 p0' _ _ hexp hint
      | succ j =>
        simp only [List.getElem?_cons_succ] at h1 h2
        rcases htag : f0.tag with _ | tag
        · by_cases hfi : isFixedInteger f0.kind = true
          · simp only [unmarshal, htag, if_pos hfi, List.getElem?_cons_succ]
            exact ih tl' _ _ htl j f p p' h1 h2 hexp hint
          · simp only [unmarshal, htag, if_neg hfi, List.getElem?_cons_succ]
            exact ih tl' _ _ htl j f p p' h1 h2 hexp hint
        · simp only [unmarshal, htag, List.getElem?_cons_succ]
          exact ih tl' _ _ htl j f p p' h1 h2 hexp hint

/-- C7: a decode call is atomic — on any validation error (TypeError or
FieldError) the target is returned completely unmodified; on success the
target is exactly the fully decoded record, and the value written into each
exported integer-kind slot is independent of every prior slot value (all
validation happens before any mutation). -/
theorem unmarshal_atomic :
    (∀ (data : List Nat) (t : Target) (opts : List GoOption) (e : UnmarshalError),
        (Unmarshal data t opts).1 = some e → (Unmarshal data t opts).2 = t)
    ∧ (∀ (data : List Nat) (t : Target) (opts : List GoOption),
        (Unmarshal data t opts).1 = none →
          (Unmarshal data t opts).2 = applyUnmarshal data t (collectOptions opts))
    ∧ (∀ (data : List Nat) (opts : List GoOption) (fs fs' : List (StructField × Int))
        (j : Nat) (f : StructField) (p p' : Int),
        fs.map Prod.fst = fs'.map Prod.fst →
        fs[j]? = some (f, p) → fs'[j]? = some (f, p') →
        f.exported = true → isFixedInteger f.kind = true →
        (Unmarshal data (.structRef fs) opts).1 = none →
        (targetFields (Unmarshal data (.structRef fs) opts).2)[j]?
          = (targetFields (Unmarshal data (.structRef fs') opts).2)[j]?) := by
  refine ⟨?_, ?_, ?_⟩
  · intro data t opts e h
    cases hv : validateUnmarshalType t with
    | some e2 => simp [Unmarshal, hv]
    | none => simp [Unmarshal, hv] at h
  · intro data t opts h
    cases hv : validateUnmarshalType t with
    | some e2 => simp [Unmarshal, hv] at h
    | none => simp [Unmarshal, hv]
  · intro data opts fs fs' j f p p' hmap h1 h2 hexp hint hok
    have hval : validateUnmarshalType (.structRef fs) = none := by
      cases hv : validateUnmarshalType (.structRef fs) with
      | some e2 => simp [Unmarshal, hv] at hok
      | none => rfl
    have hval' : validateUnmarshalType (.structRef fs') = none := by
      simp only [validateUnmarshalType, ensureNonNilPointerToStruct, validateStruct] at hval ⊢
      rw [← hmap]
      exact hval
    have hj : j < fs.length := by
      rcases List.getElem?_eq_some_iff.mp h1 with ⟨hjlt, _⟩
      exact hjlt
    have hj' : j < fs'.length := by
      rcases List.getElem?_eq_some_iff.mp h2 with ⟨hjlt, _⟩
      exact hjlt
    have hvals := unmarshal_getElem_indep data (collectOptions opts).byteOrder fs fs' 0 0
      hmap j f p p' h1 h2 hexp hint
    have hjv : j < (unmarshal data (collectOptions opts).byteOrder fs 0 0).length := by
      rw [unmarshal_length]
      exact hj
    have hjv' : j < (unmarshal data (collectOptions opts).byteOrder fs' 0 0).length := by
      rw [unmarshal_length]
      exact hj'
    simp only [Unmarshal, hval, hval', applyUnmarshal, targetFields]
    rw [List.getElem?_zipWith, List.getElem?_zipWith, h1, h2,
      List.getElem?_eq_getElem hjv, List.getElem?_eq_getElem hjv']
    rw [List.getElem?_eq_getElem hjv, List.getElem?_eq_getElem hjv'] at hvals
    simp only [Option.some.injEq] at hvals
    simp [hvals]

/-- C7 witness: a failing decode leaves the target untouched, instantiated
at a nil target. -/
theorem unmarshal_atomic_witness :
    (Unmarshal [0x00] Target.nilValue []).2 = Target.nilValue :=
  unmarshal_atomic.1 [0x00] Target.nilValue []
    (.typeError "de/encoded object must be non-nil pointer to struct (nil passed)")
    (by decide)

/-- Helper: a slot that is not an exported integer-kind field keeps its prior
value when stored. -/
theorem storeField_not_written (f : StructField) (p : Int) (v bs : Nat)
    (h : ¬(f.exported = true ∧ isFixedInteger f.kind = true)) :
    storeField f p v bs = p := by
  by_cases he : f.exported = true
  · cases hk : f.kind <;> simp_all [storeField, kindUnsigned, kindSigned, isFixedInteger]
  · simp [storeField, he]

/-- Helper: with enough buffer, the little-endian loop advances the absolute
cursor position by exactly the remaining requested bits. -/
theorem leOuter_advance (data : List Nat) (bitSize : Nat) :
    ∀ (rem val i iData iBit : Nat), iBit < 8 → rem = data.length - iData → i ≤ bitSize →
      8 * iData + iBit + (bitSize - i) ≤ 8 * data.length →
      8 * (leOuter data bitSize rem val i iData iBit).2.1 +
        (leOuter data bitSize rem val i iData iBit).2.2
        = 8 * iData + iBit + (bitSize - i) := by
  intro rem
  induction rem with
  | zero =>
    intro val i iData iBit h8 hrem hi hbud
    simp only [leOuter]
    omega
  | succ rem ih =>
    intro val i iData iBit h8 hrem hi hbud
    by_cases h : i < bitSize
    · simp only [leOuter, if_pos h]
      obtain ⟨hc1, hc2⟩ := leInner_cursor (data.getD iData 0) bitSize (8 - iBit) val i iBit
      by_cases hm : bitSize - i < 8 - iBit
      · have hnr : ¬ 8 ≤ (leInner (data.getD iData 0) bitSize (8 - iBit) val i iBit).2.2 := by
          omega
        rw [if_neg hnr]
        dsimp only
        omega
      · have hr : 8 ≤ (leInner (data.getD iData 0) bitSize (8 - iBit) val i iBit).2.2 := by
          omega
        rw [if_pos hr]
        have hrec := ih (leInner (data.getD iData 0) bitSize (8 - iBit) val i iBit).1
          (leInner (data.getD iData 0) bitSize (8 - iBit) val i iBit).2.1
          (iData + 1) 0 (by norm_num) (by omega) (by omega) (by omega)
        omega
    · simp only [leOuter, if_neg h]
      omega

/-- Helper: with enough buffer, the big-endian loop advances the absolute
cursor position by exactly the remaining requested bits. -/
theorem beOuter_advance (data : List Nat) (bitSize : Nat) :
    ∀ (rem val consumedBits iData iBit : Nat), iBit < 8 → rem = data.length - iData →
      consumedBits ≤ bitSize →
      8 * iData + iBit + (bitSize - consumedBits) ≤ 8 * data.length →
      8 * (beOuter data bitSize rem val consumedBits iData iBit).2.1 +
        (beOuter data bitSize rem val consumedBits iData iBit).2.2
        = 8 * iData + iBit + (bitSize - consumedBits) := by
  intro rem
  induction rem with
  | zero =>
    intro val consumedBits iData iBit h8 hrem hc hbud
    simp only [beOuter]
    omega
  | succ rem ih =>
    intro val consumedBits iData iBit h8 hrem hc hbud
    by_cases h : consumedBits < bitSize
    · simp only [beOuter, if_pos h]
      set w := if bitSize - consumedBits < 8 - iBit then bitSize - consumedBits else 8 - iBit
        with hw
      by_cases hm : bitSize - consumedBits < 8 - iBit
      · have hwe : w = bitSize - consumedBits := by rw [hw, if_pos hm]
        have hnr : ¬ 8 ≤ iBit + w := by omega
        rw [if_neg hnr]
        dsimp only
        omega
      · have hwe : w = 8 - iBit := by rw [hw, if_neg hm]
        have hr : 8 ≤ iBit + w := by omega
        rw [if_pos hr]
        have hrec := ih (((val <<< w) % 2 ^ 64) |||
            (data.getD iData 0 >>> iBit &&& (255 >>> (8 - w))))
          (consumedBits + w) (iData + 1) 0 (by norm_num) (by omega) (by omega) (by omega)
        omega
    · simp only [beOuter, if_neg h]
      omega

/-- C10: asymmetric cursor consumption and the frame property —
(1) replacing a field by one of the same kind and tag (e.g. an unexported
placeholder) never changes how the remaining fields decode: the discarded
value still consumes the same cursor positions;
(2) an untagged non-integer field is skipped outright: no cursor movement,
its slot keeps its prior value;
(3) every slot other than the exported integer-kind ones keeps its prior
value;
(4) with enough buffer, a parse advances the cursor by exactly its width. -/
theorem skip_and_placeholder_consumption :
    (∀ (data : List Nat) (bo : ByteOrder) (f g : StructField) (p q : Int)
        (rest : List (StructField × Int)) (iData iBit : Nat),
        f.kind = g.kind → f.tag = g.tag →
        (unmarshal data bo ((f, p) :: rest) iData iBit).tail
          = (unmarshal data bo ((g, q) :: rest) iData iBit).tail)
    ∧ (∀ (data : List Nat) (bo : ByteOrder) (f : StructField) (p : Int)
        (rest : List (StructField × Int)) (iData iBit : Nat),
        f.tag = none → isFixedInteger f.kind = false →
        unmarshal data bo ((f, p) :: rest) iData iBit
          = p :: unmarshal data bo rest iData iBit)
    ∧ (∀ (data : List Nat) (bo : ByteOrder) (fs : List (StructField × Int))
        (iData iBit j : Nat) (f : StructField) (p : Int),
        fs[j]? = some (f, p) → ¬(f.exported = true ∧ isFixedInteger f.kind = true) →
        (unmarshal data bo fs iData iBit)[j]? = some p)
    ∧ (∀ (data : List Nat) (bitSize iData iBit : Nat) (bo : ByteOrder),
        iBit < 8 → 8 * iData + iBit + bitSize ≤ 8 * data.length →
        8 * (parseValue data bitSize iData iBit bo).2.1 +
          (parseValue data bitSize iData iBit bo).2.2 = 8 * iData + iBit + bitSize) := by
  refine ⟨?_, ?_, ?_, ?_⟩
  · intro data bo f g p q rest iData iBit hkind htag
    obtain ⟨fk, ft, fe⟩ := f
    obtain ⟨gk, gt, ge⟩ := g
    dsimp only at hkind htag
    subst hkind
    subst htag
    cases ft with
    | none =>
      by_cases hfi : isFixedInteger fk = true
      · simp [unmarshal, hfi]
      · simp [unmarshal, hfi]
    | some tag => simp [unmarshal]
  · intro data bo f p rest iData iBit ht hfi
    obtain ⟨fk, ft, fe⟩ := f
    dsimp only at ht hfi
    subst ht
    simp [unmarshal, hfi]
  · intro data bo fs
    induction fs with
    | nil =>
      intro iData iBit j f p h1
      simp at h1
    | cons hd tl ih =>
      intro iData iBit j f p h1 hnw
      obtain ⟨f0, p0⟩ := hd
      cases j with
      | zero =>
        simp only [List.getElem?_cons_zero, Option.some.injEq] at h1
        rw [Prod.mk.injEq] at h1
        obtain ⟨hf, hp⟩ := h1
        subst hf
        subst hp
        cases htag : f0.tag with
        | none =>
          by_cases hfi : isFixedInteger f0.kind = true
          · simp only [unmarshal, htag, if_pos hfi, List.getElem?_cons_zero,
              Option.some.injEq]
            exact storeField_not_written f0 p0 _ _ hnw
          · simp only [unmarshal, htag, if_neg hfi, List.getElem?_cons_zero]
        | some tag =>
          simp only [unmarshal, htag, List.getElem?_cons_zero, Option.some.injEq]
          exact storeField_not_written f0 p0 _ _ hnw
      | succ j =>
        simp only [List.getElem?_cons_succ] at h1
        cases htag : f0.tag with
        | none =>
          by_cases hfi : isFixedInteger f0.kind = true
          · simp only [unmarshal, htag, if_pos hfi, List.getElem?_cons_succ]
            exact ih _ _ j f p h1 hnw
          · simp only [unmarshal, htag, if_neg hfi, List.getElem?_cons_succ]
            exact ih _ _ j f p h1 hnw
        | some tag =>
          simp only [unmarshal, htag, List.getElem?_cons_succ]
          exact ih _ _ j f p h1 hnw
  · intro data bitSize iData iBit bo h8 hbud
    cases bo
    · have hr := leOuter_advance data bitSize (data.length - iData) 0 0 iData iBit h8 rfl
        (Nat.zero_le _) (by omega)
      simpa using hr
    · have hr := beOuter_advance data bitSize (data.length - iData) 0 0 iData iBit h8 rfl
        (Nat.zero_le _) (by omega)
      simpa using hr

/-- C10 witness: an unexported tagged placeholder slot keeps its prior
value 7 while still being decoded over the bit stream. -/
theorem skip_and_placeholder_consumption_witness :
    (unmarshal [0x55] .LittleEndian [(⟨.u8, some "4", false⟩, 7)] 0 0)[0]? = some 7 :=
  skip_and_placeholder_consumption.2.2.1 [0x55] .LittleEndian
    [(⟨.u8, some "4", false⟩, 7)] 0 0 0 ⟨.u8, some "4", false⟩ 7 (by decide) (by decide)

/-- Helper: `validateStructFields i fields` returns exactly the first field
error, with indices offset by the start index `i`. -/
theorem validateStructFields_some_iff :
    ∀ (fields : List StructField) (i k : Nat) (problem : String),
      validateStructFields i fields = some (.fieldError k problem) ↔
        ∃ j f, k = i + j ∧ fields[j]? = some f ∧ validateField f = some problem ∧
          ∀ l, l < j → ∀ g, fields[l]? = some g → validateField g = none := by
  intro fields
  induction fields with
  | nil =>
    intro i k problem
    simp [validateStructFields]
  | cons f0 tl ih =>
    intro i k problem
    cases hv : validateField f0 with
    | some pb =>
      simp only [validateStructFields, hv]
      constructor
      · intro h
        simp only [Option.some.injEq, UnmarshalError.fieldError.injEq] at h
        obtain ⟨hk, hpb⟩ := h
        refine ⟨0, f0, by omega, by simp, by rw [hv, hpb], ?_⟩
        intro l hl
        omega
      · rintro ⟨j, f, hk, hget, hvf, hprev⟩
        cases j with
        | zero =>
          simp only [List.getElem?_cons_zero, Option.some.injEq] at hget
          subst hget
          rw [hv] at hvf
          simp only [Option.some.injEq] at hvf
          have hki : k = i := by omega
          subst hki
          rw [hvf]
        | succ j =>
          exfalso
          have h0 := hprev 0 (by omega) f0 (by simp)
          rw [hv] at h0
          exact absurd h0 (by simp)
    | none =>
      simp only [validateStructFields, hv]
      rw [ih (i + 1) k problem]
      constructor
      · rintro ⟨j, f, hk, hget, hvf, hprev⟩
        refine ⟨j + 1, f, by omega, by simpa using hget, hvf, ?_⟩
        intro l hl g hg
        cases l with
        | zero =>
          simp only [List.getElem?_cons_zero, Option.some.injEq] at hg
          subst hg
          exact hv
        | succ l =>
          exact hprev l (by omega) g (by simpa using hg)
      · rintro ⟨j, f, hk, hget, hvf, hprev⟩
        cases j with
        | zero =>
          simp only [List.getElem?_cons_zero, Option.some.injEq] at hget
          subst hget
          rw [hv] at hvf
          exact absurd hvf (by simp)
        | succ j =>
          refine ⟨j, f, by omega, by simpa using hget, hvf, ?_⟩
          intro l hl g hg
          exact hprev (l + 1) (by omega) g (by simpa using hg)

/-- Helper: `validateStructFields` accepts exactly when every field is
individually valid. -/
theorem validateStructFields_none_iff :
    ∀ (fields : List StructField) (i : Nat),
      validateStructFields i fields = none ↔
        ∀ (j : Nat) (g : StructField), fields[j]? = some g → validateField g = none := by
  intro fields
  induction fields with
  | nil =>
    intro i
    simp [validateStructFields]
  | cons f0 tl ih =>
    intro i
    cases hv : validateField f0 with
    | some pb =>
      simp only [validateStructFields, hv]
      constructor
      · intro h
        exact absurd h (by simp)
      · intro h
        have h0 := h 0 f0 (by simp)
        rw [hv] at h0
        exact absurd h0 (by simp)
    | none =>
      simp only [validateStructFields, hv]
      rw [ih (i + 1)]
      constructor
      · intro h j g hg
        cases j with
        | zero =>
          simp only [List.getElem?_cons_zero, Option.some.injEq] at hg
          subst hg
          exact hv
        | succ j =>
          exact h j g (by simpa using hg)
      · intro h j g hg
        exact h (j + 1) g (by simpa using hg)

/-- C9 (amended): validation inspects every field, in declaration order,
failing fast — the reported FieldError is exactly the first field whose own
validation fails; the reason "bit size must be integer" is produced exactly
when the annotation does not parse as an integer at all (an annotation that
parses to a non-positive integer instead fails the later range check); and
any validation error is raised before any byte of the buffer is read — the
same error and untouched target result for every buffer. -/
theorem validate_first_failure :
    (∀ (fields : List StructField) (k : Nat) (problem : String),
        validateStructFields 0 fields = some (.fieldError k problem) ↔
          ∃ f, fields[k]? = some f ∧ validateField f = some problem ∧
            ∀ l, l < k → ∀ g, fields[l]? = some g → validateField g = none)
    ∧ (∀ (fields : List StructField),
        validateStructFields 0 fields = none ↔
          ∀ (j : Nat) (g : StructField), fields[j]? = some g → validateField g = none)
    ∧ (∀ (f : StructField) (tag : String), f.tag = some tag → atoi tag = none →
        validateField f = some "bit size must be integer")
    ∧ (∀ (data data2 : List Nat) (t : Target) (opts : List GoOption) (e : UnmarshalError),
        validateUnmarshalType t = some e →
          Unmarshal data t opts = (some e, t) ∧ Unmarshal data2 t opts = (some e, t)) := by
  refine ⟨?_, ?_, ?_, ?_⟩
  · intro fields k problem
    rw [validateStructFields_some_iff fields 0 k problem]
    constructor
    · rintro ⟨j, f, hk, hget, hvf, hprev⟩
      have hkj : k = j := by omega
      subst hkj
      exact ⟨f, hget, hvf, fun l hl g hg => hprev l hl g hg⟩
    · rintro ⟨f, hget, hvf, hprev⟩
      exact ⟨k, f, by omega, hget, hvf, fun l hl g hg => hprev l hl g hg⟩
  · intro fields
    exact validateStructFields_none_iff fields 0
  · intro f tag ht ha
    obtain ⟨fk, ft, fe⟩ := f
    dsimp only at ht
    subst ht
    simp [validateField, ha]
  · intro data data2 t opts e hv
    constructor <;> simp [Unmarshal, hv]

/-- C9 witness: a non-numeric tag "x" yields the "must be integer" reason. -/
theorem validate_first_failure_witness :
    validateField ⟨Kind.u8, some "x", true⟩ = some "bit size must be integer" :=
  validate_first_failure.2.2.1 ⟨Kind.u8, some "x", true⟩ "x" rfl (by decide)

/-- Helper: peeling the lowest bit from a power-of-two modulus. -/
theorem mod_two_pow_succ_low (e cap : Nat) :
    e % 2 ^ (cap + 1) = e % 2 + 2 * (e / 2 % 2 ^ cap) := by
  rw [show (2 : Nat) ^ (cap + 1) = 2 * 2 ^ cap from by rw [pow_succ]; ring, Nat.mod_mul]

/-- Helper: closed form of the little-endian inner loop — it adds the next
`cap` bits of the current byte (read from `iBit` upward) at output position
`i`, provided the accumulator has no bits at or above `i`. -/
theorem leInner_closed (d bitSize : Nat) :
    ∀ (cap val i iBit : Nat), bitSize ≤ 64 → i + cap ≤ bitSize → val < 2 ^ i →
      (leInner d bitSize cap val i iBit).1
        = val + ((d >>> iBit) % 2 ^ cap) * 2 ^ i := by
  intro cap
  induction cap with
  | zero =>
    intro val i iBit h64 hcap hv
    simp [leInner, Nat.mod_one]
  | succ cap ih =>
    intro val i iBit h64 hcap hv
    have hlt : i < bitSize := by omega
    simp only [leInner, if_pos hlt]
    have hmod64 : ((((d >>> iBit) &&& 1) <<< i) % 2 ^ 64) = ((d >>> iBit) &&& 1) <<< i := by
      apply Nat.mod_eq_of_lt
      calc ((d >>> iBit) &&& 1) <<< i = ((d >>> iBit) &&& 1) * 2 ^ i := Nat.shiftLeft_eq _ _
        _ ≤ 1 * 2 ^ i := Nat.mul_le_mul_right _ Nat.and_le_right
        _ = 2 ^ i := Nat.one_mul _
        _ < 2 ^ 64 := Nat.pow_lt_pow_right (by norm_num) (by omega)
    rw [hmod64]
    have hor := Nat.mul_add_lt_is_or hv ((d >>> iBit) % 2)
    have hval1 : val ||| (((d >>> iBit) &&& 1) <<< i) = val + ((d >>> iBit) % 2) * 2 ^ i := by
      rw [Nat.and_one_is_mod, Nat.shiftLeft_eq, Nat.lor_comm, mul_comm, ← hor]
      ring
    rw [hval1]
    have hm1 : ((d >>> iBit) % 2) * 2 ^ i ≤ 2 ^ i := by
      have h2 : (d >>> iBit) % 2 ≤ 1 := by omega
      calc ((d >>> iBit) % 2) * 2 ^ i ≤ 1 * 2 ^ i := Nat.mul_le_mul_right _ h2
        _ = 2 ^ i := Nat.one_mul _
    have hp : (2 : Nat) ^ (i + 1) = 2 ^ i + 2 ^ i := by ring
    rw [ih (val + ((d >>> iBit) % 2) * 2 ^ i) (i + 1) (iBit + 1) h64 (by omega) (by omega)]
    rw [Nat.shiftRight_succ, mod_two_pow_succ_low]
    ring

/-- Helper: starting byte-aligned with `k` whole bytes requested and
available, the little-endian loop reads exactly those `k` bytes,
little-endian assembled, and lands byte-aligned after them. -/
theorem leOuter_bytes (data : List Nat) (h256 : ∀ b ∈ data, b < 256) :
    ∀ (k i val iData : Nat), i + 8 * k ≤ 64 → val < 2 ^ i → iData + k ≤ data.length →
      leOuter data (i + 8 * k) (data.length - iData) val i iData 0
        = (val + (readBytesDirect .LittleEndian ((data.drop iData).take k)) * 2 ^ i,
           iData + k, 0) := by
  intro k
  induction k with
  | zero =>
    intro i val iData h64 hv hlen
    have hng : ¬ i < i + 8 * 0 := by omega
    cases hrem : data.length - iData with
    | zero => simp [leOuter, readBytesDirect]
    | succ rem => simp [leOuter, hng, readBytesDirect]
  | succ k ih =>
    intro i val iData h64 hv hlen
    have hlt : iData < data.length := by omega
    obtain ⟨rem, hrem⟩ : ∃ rem, data.length - iData = rem + 1 :=
      ⟨data.length - iData - 1, by omega⟩
    rw [hrem]
    have hguard : i < i + 8 * (k + 1) := by omega
    simp only [leOuter, if_pos hguard, Nat.sub_zero]
    have hd : data.getD iData 0 = data[iData] := List.getD_eq_getElem data 0 hlt
    have hd256 : data[iData] < 256 := h256 _ (List.getElem_mem hlt)
    have hcl := leInner_closed (data.getD iData 0) (i + 8 * (k + 1)) 8 val i 0
      (by omega) (by omega) hv
    obtain ⟨hc1, hc2⟩ := leInner_cursor (data.getD iData 0) (i + 8 * (k + 1)) 8 val i 0
    have hreset : 8 ≤ (leInner (data.getD iData 0) (i + 8 * (k + 1)) 8 val i 0).2.2 := by
      omega
    rw [if_pos hreset]
    have h28 : (2 : Nat) ^ 8 = 256 := by norm_num
    have hval2 : (leInner (data.getD iData 0) (i + 8 * (k + 1)) 8 val i 0).1
        = val + data[iData] * 2 ^ i := by
      rw [hcl, hd, Nat.shiftRight_zero, h28, Nat.mod_eq_of_lt hd256]
    have hi2 : (leInner (data.getD iData 0) (i + 8 * (k + 1)) 8 val i 0).2.1 = i + 8 := by
      omega
    rw [hval2, hi2]
    have hbs : i + 8 * (k + 1) = (i + 8) + 8 * k := by ring
    rw [hbs]
    have hrem2 : rem = data.length - (iData + 1) := by omega
    rw [hrem2]
    have hb : val + data[iData] * 2 ^ i < 2 ^ (i + 8) := by
      have h1 : data[iData] * 2 ^ i ≤ 255 * 2 ^ i := Nat.mul_le_mul_right _ (by omega)
      have h2 : (2 : Nat) ^ (i + 8) = 256 * 2 ^ i := by rw [pow_add]; ring
      omega
    rw [ih (i + 8) (val + data[iData] * 2 ^ i) (iData + 1) (by omega) hb (by omega)]
    have hslice : (data.drop iData).take (k + 1)
        = data[iData] :: ((data.drop (iData + 1)).take k) := by
      rw [List.drop_eq_getElem_cons hlt, List.take_succ_cons]
    rw [hslice]
    simp only [readBytesDirect, List.foldr_cons, Prod.mk.injEq]
    refine ⟨?_, by omega, trivial⟩
    rw [pow_add]
    ring

/-- Helper: starting byte-aligned with `k` whole bytes requested and
available, the big-endian loop folds exactly those `k` bytes into the
accumulator, big-endian style, and lands byte-aligned after them. -/
theorem beOuter_bytes (data : List Nat) (h256 : ∀ b ∈ data, b < 256) :
    ∀ (k c val iData : Nat), c + 8 * k ≤ 64 → val < 2 ^ c → iData + k ≤ data.length →
      beOuter data (c + 8 * k) (data.length - iData) val c iData 0
        = (List.foldl (fun acc b => acc * 256 + b) val ((data.drop iData).take k),
           iData + k, 0) := by
  intro k
  induction k with
  | zero =>
    intro c val iData h64 hv hlen
    have hng : ¬ c < c + 8 * 0 := by omega
    cases hrem : data.length - iData with
    | zero => simp [beOuter]
    | succ rem => simp [beOuter, hng]
  | succ k ih =>
    intro c val iData h64 hv hlen
    have hlt : iData < data.length := by omega
    obtain ⟨rem, hrem⟩ : ∃ rem, data.length - iData = rem + 1 :=
      ⟨data.length - iData - 1, by omega⟩
    rw [hrem]
    have hguard : c < c + 8 * (k + 1) := by omega
    simp only [beOuter, if_pos hguard, Nat.sub_zero]
    have hwant : ¬ (c + 8 * (k + 1) - c < 8) := by omega
    rw [if_neg hwant]
    have hd : data.getD iData 0 = data[iData] := List.getD_eq_getElem data 0 hlt
    have hd256 : data[iData] < 256 := h256 _ (List.getElem_mem hlt)
    have h28 : (2 : Nat) ^ 8 = 256 := by norm_num
    have hmask : (255 : Nat) >>> (8 - 8) = 255 := rfl
    rw [hmask]
    have hshift : (val <<< 8) % 2 ^ 64 = val * 256 := by
      rw [Nat.shiftLeft_eq, h28]
      apply Nat.mod_eq_of_lt
      have h1 : val * 256 < 2 ^ c * 256 := (mul_lt_mul_right (by norm_num)).mpr hv
      have h2 : (2 : Nat) ^ c * 256 ≤ 2 ^ 64 := by
        have h3 : (2 : Nat) ^ c * 256 = 2 ^ (c + 8) := by rw [pow_add]; ring
        rw [h3]
        exact Nat.pow_le_pow_right (by norm_num) (by omega)
      omega
    rw [hd, hshift, Nat.shiftRight_zero]
    have hand : data[iData] &&& 255 = data[iData] := by
      rw [show (255 : Nat) = 2 ^ 8 - 1 from by norm_num, Nat.and_pow_two_sub_one_eq_mod,
        h28, Nat.mod_eq_of_lt hd256]
    rw [hand]
    have hor : val * 256 ||| data[iData] = val * 256 + data[iData] := by
      have h := Nat.mul_add_lt_is_or (show data[iData] < 2 ^ 8 from by omega) val
      rw [h28] at h
      rw [mul_comm val 256]
      exact h.symm
    rw [hor]
    rw [if_pos (show (8 : Nat) ≤ 0 + 8 from by norm_num)]
    have hbs : c + 8 * (k + 1) = (c + 8) + 8 * k := by ring
    rw [hbs]
    have hrem2 : rem = data.length - (iData + 1) := by omega
    rw [hrem2]
    have hb2 : val * 256 + data[iData] < 2 ^ (c + 8) := by
      have h1 : val * 256 < 2 ^ c * 256 := (mul_lt_mul_right (by norm_num)).mpr hv
      have h2 : (2 : Nat) ^ (c + 8) = 2 ^ c * 256 := by rw [pow_add]; ring
      omega
    rw [ih (c + 8) (val * 256 + data[iData]) (iData + 1) (by omega) hb2 (by omega)]
    have hslice : (data.drop iData).take (k + 1)
        = data[iData] :: ((data.drop (iData + 1)).take k) := by
      rw [List.drop_eq_getElem_cons hlt, List.take_succ_cons]
    rw [hslice]
    simp only [List.foldl_cons, Prod.mk.injEq]
    exact ⟨trivial, by omega, trivial⟩

/-- C5: a plain integer field read from a byte-aligned cursor is exactly a
direct byte-order-assembled read of its natural width in whole bytes — the
bit-by-bit extraction of `8·k` bits equals assembling the `k` bytes directly
(little- or big-endian), and the cursor advances by exactly `k` whole bytes,
ending byte-aligned. -/
theorem plain_field_reads_whole_bytes :
    ∀ (kind : Kind) (data : List Nat) (iData : Nat) (bo : ByteOrder),
      (∀ b ∈ data, b < 256) → isFixedInteger kind = true →
      iData + kindBits kind / 8 ≤ data.length →
      parseValue data (kindBits kind) iData 0 bo
        = (readBytesDirect bo ((data.drop iData).take (kindBits kind / 8)),
           iData + kindBits kind / 8, 0) := by
  intro kind data iData bo h256 hk hlen
  have main : ∀ K : Nat, K ≤ 8 → iData + K ≤ data.length →
      parseValue data (8 * K) iData 0 bo
        = (readBytesDirect bo ((data.drop iData).take K), iData + K, 0) := by
    intro K hK hlen2
    cases bo
    · have h := leOuter_bytes data h256 K 0 0 iData (by omega) (by norm_num) hlen2
      simpa [parseValue, parseValueLittleEndian] using h
    · have h := beOuter_bytes data h256 K 0 0 iData (by omega) (by norm_num) hlen2
      simpa [parseValue, parseValueBigEndian, readBytesDirect] using h
  cases kind
  case u8 => exact main 1 (by norm_num) hlen
  case u16 => exact main 2 (by norm_num) hlen
  case u32 => exact main 4 (by norm_num) hlen
  case u64 => exact main 8 (by norm_num) hlen
  case i8 => exact main 1 (by norm_num) hlen
  case i16 => exact main 2 (by norm_num) hlen
  case i32 => exact main 4 (by norm_num) hlen
  case i64 => exact main 8 (by norm_num) hlen
  case nonInteger => simp [isFixedInteger] at hk

/-- C5 witness: a single uint32 on {0x01,0x23,0x45,0x67} — LittleEndian
assembles 0x67452301 and BigEndian assembles 0x01234567. -/
theorem plain_field_reads_whole_bytes_witness :
    parseValue [0x01, 0x23, 0x45, 0x67] (kindBits .u32) 0 0 .LittleEndian
        = (readBytesDirect .LittleEndian
            (([0x01, 0x23, 0x45, 0x67].drop 0).take (kindBits .u32 / 8)),
           0 + kindBits .u32 / 8, 0)
      ∧ parseValue [0x01, 0x23, 0x45, 0x67] (kindBits .u32) 0 0 .BigEndian
        = (readBytesDirect .BigEndian
            (([0x01, 0x23, 0x45, 0x67].drop 0).take (kindBits .u32 / 8)),
           0 + kindBits .u32 / 8, 0)
      ∧ readBytesDirect .LittleEndian [0x01, 0x23, 0x45, 0x67] = 0x67452301
      ∧ readBytesDirect .BigEndian [0x01, 0x23, 0x45, 0x67] = 0x01234567 :=
  ⟨plain_field_reads_whole_bytes .u32 [0x01, 0x23, 0x45, 0x67] 0 .LittleEndian
      (by decide) (by decide) (by decide),
   plain_field_reads_whole_bytes .u32 [0x01, 0x23, 0x45, 0x67] 0 .BigEndian
      (by decide) (by decide) (by decide),
   by decide, by decide⟩
